import Mathlib

/-!
Verification of the gitgat per-author statistics pipeline.

The development shallowly embeds the Rust module src/gitgat/mod.rs.
Counters are Nat: the source uses u32 with checked arithmetic, so any
completed run performed exactly the unbounded arithmetic modelled here.
Rust panics (out of bounds indexing, Option unwrap on None) are modelled
by returning none from the Option valued functions below.
-/

namespace Gitgat

/-- Splits a character list at every slash, keeping empty pieces.
Models the component splitting underlying std path handling. -/
def splitSlashAux : List Char → List Char → List String
  | [], acc => [String.mk acc.reverse]
  | c :: cs, acc =>
    if c = '/' then String.mk acc.reverse :: splitSlashAux cs []
    else splitSlashAux cs (c :: acc)

/-- Splits a string on slashes. -/
def splitSlash (s : String) : List String :=
  splitSlashAux s.data []

/-- Components of a path in the sense of Rust std::path::Path::components:
empty pieces vanish, a single dot vanishes except at the start of a
relative path, and a leading slash becomes the root marker component. -/
def pathComponents (s : String) : List String :=
  let parts := (splitSlash s).filter (fun p => p ≠ "")
  if s.data.head? = some '/' then
    "/" :: parts.filter (fun p => p ≠ ".")
  else
    match parts with
    | [] => []
    | c :: cs => c :: cs.filter (fun p => p ≠ ".")

/-- Boolean test that the first list is an initial segment of the second. -/
def leadsList : List String → List String → Bool
  | [], _ => true
  | _ :: _, [] => false
  | a :: xs, b :: ys => a == b && leadsList xs ys

/-- Boolean test on character lists that the first is an initial segment
of the second. -/
def leadsChars : List Char → List Char → Bool
  | [], _ => true
  | _ :: _, [] => false
  | a :: xs, b :: ys => a == b && leadsChars xs ys

/-- Models Rust std::path::Path::starts_with as used at mod.rs line 146:
the base path components must be an initial segment of the path
components, whole components only. -/
def pathStartsWith (p base : String) : Bool :=
  leadsList (pathComponents base) (pathComponents p)

/-- Modelled from the spec: the literal string prefix test over the
textual representation of the path, which section 4.3 of the spec claims
the exclusion filter performs. Kept only to compare against the source
behavior pathStartsWith. -/
def specLiteralStartsWith (p base : String) : Bool :=
  leadsChars base.data p.data

/-- Per commit record built by the run loop, struct Commit in mod.rs. -/
structure Commit where
  hash : String
  summary : String
  additions : Nat
  deletions : Nat
deriving DecidableEq

/-- Commit::new. -/
def Commit.new (hash summary : String) : Commit :=
  { hash := hash, summary := summary, additions := 0, deletions := 0 }

/-- Commit::size, the maximum of additions and deletions. -/
def Commit.size (c : Commit) : Nat :=
  max c.additions c.deletions

/-- Aggregate statistics, struct Stats in mod.rs. The Rust field top is a
borrowed reference into the history list; it is modelled as an owned
optional Commit value. -/
structure Stats where
  commits : Nat
  additions : Nat
  deletions : Nat
  top : Option Commit
deriving DecidableEq

/-- Stats::default, all counters zero and no top commit. -/
def Stats.default : Stats :=
  { commits := 0, additions := 0, deletions := 0, top := none }

/-- Stats::update, the fold step: bump the counters and replace top only
when the incoming commit is strictly larger. -/
def Stats.update (s : Stats) (c : Commit) : Stats :=
  { commits := s.commits + 1
    additions := s.additions + c.additions
    deletions := s.deletions + c.deletions
    top :=
      match s.top with
      | some t => if c.size > t.size then some c else some t
      | none => some c }

/-- The history of summarized commits, struct History in mod.rs. -/
structure History where
  commits : List Commit

/-- History::stats, folding Stats::update over the records from
Stats::default. -/
def History.stats (h : History) : Stats :=
  h.commits.foldl Stats.update Stats.default

/-- One classified diff line as delivered by the line callback: the new
file path of its delta (None when the delta carries no new file path) and
the origin character, with addition lines tagged with a plus, deletion
lines with a minus and binary lines with the letter B. -/
structure DiffLine where
  path : Option String
  origin : Char
deriving DecidableEq

/-- Input view of one walked commit: its recorded author name as returned
by author().name() (None when absent or not valid UTF8), its hash, its
summary as returned by summary(), and the classified diff lines produced
by the external diff of this commit against its predecessor. -/
structure SourceCommit where
  author : Option String
  hash : String
  summary : Option String
  lines : List DiffLine
deriving DecidableEq

/-- The author filter at mod.rs line 121: the commit is retained exactly
when author().name() equals Some of the target string. -/
def authorRetained (name : Option String) (target : String) : Bool :=
  name == some target

/-- The match on line.origin() at mod.rs lines 150 to 154. -/
def applyOrigin (o : Char) (c : Commit) : Commit :=
  if o = '+' then { c with additions := c.additions + 1 }
  else if o = '-' then { c with deletions := c.deletions + 1 }
  else c

/-- The line callback at mod.rs lines 141 to 156. With a nonempty
exclusion list the any iterator first unwraps the delta new file path, a
panic when it is None, modelled by none. An excluded line leaves the
record unchanged; otherwise the origin match runs. -/
def applyLine (dirs : List String) (l : DiffLine) (c : Commit) : Option Commit :=
  match dirs with
  | [] => some (applyOrigin l.origin c)
  | _ :: _ =>
    match l.path with
    | none => none
    | some p =>
      if dirs.any (fun d => pathStartsWith p d) then some c
      else some (applyOrigin l.origin c)

/-- Runs the line callback over the diff lines in order, threading the
record and propagating a panic. -/
def runLines (dirs : List String) : Commit → List DiffLine → Option Commit
  | c, [] => some c
  | c, l :: ls =>
    match applyLine dirs l c with
    | none => none
    | some c2 => runLines dirs c2 ls

/-- Builds the record for one qualifying commit: Commit::new_from_commit
with the unknown summary sentinel, then the diff foreach. -/
def summarize (dirs : List String) (sc : SourceCommit) : Option Commit :=
  runLines dirs (Commit.new sc.hash (sc.summary.getD "<unknown summary>")) sc.lines

/-- The run loop of mod.rs lines 119 to 160 over the collected oids. The
loop index ranges over the whole list; a commit is skipped when the
author filter rejects it, and otherwise the predecessor at index i plus
one is fetched before the diff. For the last list element that index is
out of bounds, a panic, modelled by none. -/
def buildHistory (author : String) (dirs : List String) : List SourceCommit → Option (List Commit)
  | [] => some []
  | [c] =>
    if authorRetained c.author author then none
    else some []
  | c :: c2 :: rest =>
    if authorRetained c.author author then
      match summarize dirs c with
      | none => none
      | some r =>
        match buildHistory author dirs (c2 :: rest) with
        | none => none
        | some tail => some (r :: tail)
    else buildHistory author dirs (c2 :: rest)

/-- The three total lines printed at mod.rs lines 162 to 164. -/
def outputLines (s : Stats) : List String :=
  [" " ++ toString s.commits ++ " commits",
   "+" ++ toString s.additions,
   "-" ++ toString s.deletions]

/-- The output stage of run, mod.rs lines 162 to 167: the totals print,
then stats.top.unwrap() is read three times; when top is None the unwrap
panics, modelled by none. -/
def finalOutput (s : Stats) : Option (List String) :=
  match s.top with
  | none => none
  | some t =>
    some (outputLines s ++
      ["Biggest commit " ++ t.hash,
       "Biggest commit " ++ toString t.size,
       "Biggest commit " ++ t.summary])

/-- The whole run on the walked commits: build the history, aggregate,
print. -/
def runModel (author : String) (dirs : List String) (cs : List SourceCommit) : Option (List String) :=
  match buildHistory author dirs cs with
  | none => none
  | some recs => finalOutput (History.stats { commits := recs })

/-- Whether a line survives the exclusion filter. For a line with a path
this negates the any test of the callback; a line without a path is only
reached when the exclusion list is empty, where the any test is false. -/
def lineIncluded (dirs : List String) (l : DiffLine) : Bool :=
  match l.path with
  | none => dirs.isEmpty
  | some p => !(dirs.any (fun d => pathStartsWith p d))

/-- Count of surviving lines with the given origin character. -/
def countOrigin (dirs : List String) (o : Char) (lines : List DiffLine) : Nat :=
  (lines.filter (fun l => lineIncluded dirs l && (l.origin == o))).length

/-! Helper lemmas. -/

theorem update_top_isSome (s : Stats) (c : Commit) : (s.update c).top.isSome := by
  simp only [Stats.update]
  cases s.top with
  | none => rfl
  | some t =>
    dsimp only
    split <;> rfl

theorem foldl_update_spec (l : List Commit) : ∀ s : Stats,
    (l.foldl Stats.update s).commits = s.commits + l.length ∧
    (l.foldl Stats.update s).additions = s.additions + (l.map Commit.additions).sum ∧
    (l.foldl Stats.update s).deletions = s.deletions + (l.map Commit.deletions).sum ∧
    ((l.foldl Stats.update s).top = none ↔ (s.top = none ∧ l = [])) := by
  induction l with
  | nil => intro s; simp
  | cons c t ih =>
    intro s
    obtain ⟨h1, h2, h3, h4⟩ := ih (s.update c)
    simp only [List.foldl_cons, List.map_cons, List.sum_cons, List.length_cons]
    have hs : (s.update c).top ≠ none := by
      have hi := update_top_isSome s c
      intro hn
      rw [hn] at hi
      exact Bool.noConfusion hi
    refine ⟨?_, ?_, ?_, ?_⟩
    · rw [h1]; simp only [Stats.update]; omega
    · rw [h2]; simp only [Stats.update]; omega
    · rw [h3]; simp only [Stats.update]; omega
    · rw [h4]
      constructor
      · rintro ⟨hnone, -⟩
        exact absurd hnone hs
      · rintro ⟨-, hcons⟩
        exact absurd hcons (List.cons_ne_nil c t)

theorem leadsList_iff : ∀ (l₁ l₂ : List String), leadsList l₁ l₂ = true ↔ ∃ t, l₁ ++ t = l₂
  | [], l₂ => by simp [leadsList]
  | a :: xs, [] => by simp [leadsList]
  | a :: xs, b :: ys => by
    simp only [leadsList, Bool.and_eq_true, beq_iff_eq]
    rw [leadsList_iff xs ys]
    constructor
    · rintro ⟨rfl, t, rfl⟩
      exact ⟨t, rfl⟩
    · rintro ⟨t, h⟩
      injection h with h1 h2
      exact ⟨h1, t, h2⟩

theorem applyLine_eq (dirs : List String) (l : DiffLine) (c : Commit)
    (h : l.path.isSome ∨ dirs = []) :
    applyLine dirs l c =
      some (if lineIncluded dirs l then applyOrigin l.origin c else c) := by
  cases dirs with
  | nil =>
    have hinc : lineIncluded [] l = true := by
      cases hl : l.path <;> simp [lineIncluded, hl]
    simp [applyLine, hinc]
  | cons d ds =>
    rcases h with hp | hne
    · obtain ⟨p, hp⟩ := Option.isSome_iff_exists.mp hp
      simp only [applyLine, lineIncluded, hp]
      by_cases hx : (d :: ds).any (fun q => pathStartsWith p q) = true <;>
        simp [hx]
    · exact absurd hne (List.cons_ne_nil d ds)

theorem runLines_cons_some (dirs : List String) (l : DiffLine) (ls : List DiffLine)
    (c c2 : Commit) (h : applyLine dirs l c = some c2) :
    runLines dirs c (l :: ls) = runLines dirs c2 ls := by
  simp [runLines, h]

theorem applyOrigin_hash (o : Char) (c : Commit) : (applyOrigin o c).hash = c.hash := by
  by_cases h1 : o = '+' <;> by_cases h2 : o = '-' <;> simp [applyOrigin, h1, h2]

theorem applyOrigin_summary (o : Char) (c : Commit) :
    (applyOrigin o c).summary = c.summary := by
  by_cases h1 : o = '+' <;> by_cases h2 : o = '-' <;> simp [applyOrigin, h1, h2]

theorem applyOrigin_additions (o : Char) (c : Commit) :
    (applyOrigin o c).additions = c.additions + (if o == '+' then 1 else 0) := by
  by_cases h1 : o = '+' <;> by_cases h2 : o = '-' <;> simp [applyOrigin, h1, h2]

theorem applyOrigin_deletions (o : Char) (c : Commit) :
    (applyOrigin o c).deletions = c.deletions + (if o == '-' then 1 else 0) := by
  by_cases h1 : o = '+' <;> by_cases h2 : o = '-' <;> simp [applyOrigin, h1, h2]

theorem countOrigin_cons (dirs : List String) (o : Char) (l : DiffLine)
    (ls : List DiffLine) :
    countOrigin dirs o (l :: ls) =
      (if lineIncluded dirs l && (l.origin == o) then 1 else 0) + countOrigin dirs o ls := by
  by_cases h : (lineIncluded dirs l && (l.origin == o)) = true <;>
    (simp [countOrigin, List.filter_cons, h]; try omega)

theorem runLines_closed (dirs : List String) : ∀ (lines : List DiffLine) (c : Commit),
    (∀ l ∈ lines, l.path.isSome ∨ dirs = []) →
    runLines dirs c lines = some
      { hash := c.hash, summary := c.summary,
        additions := c.additions + countOrigin dirs '+' lines,
        deletions := c.deletions + countOrigin dirs '-' lines } := by
  intro lines
  induction lines with
  | nil =>
    intro c h
    simp [runLines, countOrigin]
  | cons l ls ih =>
    intro c h
    have hl := h l (List.mem_cons_self l ls)
    have hrest : ∀ x ∈ ls, x.path.isSome ∨ dirs = [] :=
      fun x hx => h x (List.mem_cons_of_mem l hx)
    rw [runLines_cons_some dirs l ls c _ (applyLine_eq dirs l c hl), ih _ hrest]
    by_cases hinc : lineIncluded dirs l = true
    · simp only [hinc, if_true, Option.some.injEq, Commit.mk.injEq,
        applyOrigin_hash, applyOrigin_summary, applyOrigin_additions,
        applyOrigin_deletions, countOrigin_cons, Bool.true_and]
      refine ⟨trivial, trivial, ?_, ?_⟩ <;>
        by_cases ho : (l.origin == '+') = true <;>
          by_cases ho2 : (l.origin == '-') = true <;>
            simp [ho, ho2] <;> omega
    · have hinc2 : lineIncluded dirs l = false := by
        cases hb : lineIncluded dirs l
        · rfl
        · exact absurd hb hinc
      simp only [hinc2, if_false, Option.some.injEq, Commit.mk.injEq,
        countOrigin_cons, Bool.false_and, Bool.false_eq_true]
      refine ⟨trivial, trivial, ?_, ?_⟩ <;> simp

theorem runLines_paths (dirs : List String) (hne : dirs ≠ []) :
    ∀ (lines : List DiffLine) (c c2 : Commit), runLines dirs c lines = some c2 →
      ∀ l ∈ lines, l.path.isSome := by
  intro lines
  induction lines with
  | nil =>
    intro c c2 h l hl
    exact absurd hl (List.not_mem_nil l)
  | cons l ls ih =>
    intro c c2 h x hx
    simp only [runLines] at h
    split at h
    · exact absurd h (by simp)
    · rename_i c1 ha
      rcases List.mem_cons.mp hx with rfl | hx2
      · cases dirs with
        | nil => exact absurd rfl hne
        | cons d ds =>
          cases hp : x.path with
          | none =>
            rw [show applyLine (d :: ds) x c = none by simp [applyLine, hp]] at ha
            exact absurd ha (by simp)
          | some p => simp
      · exact ih _ _ h x hx2

theorem filter_length_mono {α : Type} (p q : α → Bool) :
    ∀ (l : List α), (∀ x ∈ l, q x = true → p x = true) →
      (l.filter q).length ≤ (l.filter p).length := by
  intro l
  induction l with
  | nil => intro h; simp
  | cons a t ih =>
    intro h
    have ht : ∀ x ∈ t, q x = true → p x = true :=
      fun x hx => h x (List.mem_cons_of_mem a hx)
    simp only [List.filter_cons]
    by_cases hq : q a = true
    · have hp := h a (List.mem_cons_self a t) hq
      simp only [hq, hp, if_true, List.length_cons]
      exact Nat.succ_le_succ (ih ht)
    · have hq2 : q a = false := by
        cases hb : q a
        · rfl
        · exact absurd hb hq
      simp only [hq2, Bool.false_eq_true, if_false]
      by_cases hp : p a = true
      · simp only [hp, if_true, List.length_cons]
        exact Nat.le_trans (ih ht) (Nat.le_succ _)
      · have hp2 : p a = false := by
          cases hb : p a
          · rfl
          · exact absurd hb hp
        simp only [hp2, Bool.false_eq_true, if_false]
        exact ih ht

theorem lineIncluded_mono (dirs dirs' : List String)
    (hsub : ∀ d ∈ dirs, d ∈ dirs') (l : DiffLine)
    (h : lineIncluded dirs' l = true) : lineIncluded dirs l = true := by
  cases hp : l.path with
  | none =>
    simp only [lineIncluded, hp] at h ⊢
    rw [List.isEmpty_iff] at h ⊢
    subst h
    exact List.eq_nil_iff_forall_not_mem.mpr
      (fun x hx => (List.not_mem_nil x) (hsub x hx))
  | some p =>
    simp only [lineIncluded, hp, Bool.not_eq_true'] at h ⊢
    rw [List.any_eq_false] at h ⊢
    exact fun d hd => h d (hsub d hd)

theorem countOrigin_mono (dirs dirs' : List String)
    (hsub : ∀ d ∈ dirs, d ∈ dirs') (o : Char) (lines : List DiffLine) :
    countOrigin dirs' o lines ≤ countOrigin dirs o lines := by
  apply filter_length_mono
  intro x hx hq
  rw [Bool.and_eq_true] at hq ⊢
  exact ⟨lineIncluded_mono dirs dirs' hsub x hq.1, hq.2⟩

theorem summarize_eq (dirs : List String) (sc : SourceCommit)
    (h : ∀ l ∈ sc.lines, l.path.isSome ∨ dirs = []) :
    summarize dirs sc = some
      { hash := sc.hash, summary := sc.summary.getD "<unknown summary>",
        additions := countOrigin dirs '+' sc.lines,
        deletions := countOrigin dirs '-' sc.lines } := by
  unfold summarize
  rw [runLines_closed dirs sc.lines _ h]
  simp [Commit.new]

theorem summarize_mono (d : String) (dirs : List String) (sc : SourceCommit)
    (r r' : Commit) (h : summarize dirs sc = some r)
    (h' : summarize (d :: dirs) sc = some r') :
    r'.additions ≤ r.additions ∧ r'.deletions ≤ r.deletions ∧ r'.size ≤ r.size := by
  have hp : ∀ l ∈ sc.lines, l.path.isSome := by
    have h2 := h'
    unfold summarize at h2
    exact runLines_paths (d :: dirs) (List.cons_ne_nil d dirs) sc.lines _ r' h2
  have hsub : ∀ x ∈ dirs, x ∈ d :: dirs := fun x hx => List.mem_cons_of_mem d hx
  have e := summarize_eq dirs sc (fun l hl => Or.inl (hp l hl))
  have e' := summarize_eq (d :: dirs) sc (fun l hl => Or.inl (hp l hl))
  rw [h] at e
  rw [h'] at e'
  injection e with e
  injection e' with e'
  subst e
  subst e'
  refine ⟨countOrigin_mono dirs (d :: dirs) hsub '+' sc.lines,
          countOrigin_mono dirs (d :: dirs) hsub '-' sc.lines, ?_⟩
  simp only [Commit.size]
  exact max_le_max (countOrigin_mono dirs (d :: dirs) hsub '+' sc.lines)
    (countOrigin_mono dirs (d :: dirs) hsub '-' sc.lines)

theorem buildHistory_rel (author d : String) (dirs : List String) :
    ∀ (cs : List SourceCommit) (h h' : List Commit),
      buildHistory author dirs cs = some h →
      buildHistory author (d :: dirs) cs = some h' →
      List.Forall₂
        (fun c' c => c'.additions ≤ c.additions ∧ c'.deletions ≤ c.deletions ∧
          c'.size ≤ c.size) h' h := by
  intro cs
  induction cs with
  | nil =>
    intro h h' e e'
    simp only [buildHistory, Option.some.injEq] at e e'
    subst e
    subst e'
    exact List.Forall₂.nil
  | cons c tail ih =>
    cases tail with
    | nil =>
      intro h h' e e'
      simp only [buildHistory] at e e'
      by_cases hr : authorRetained c.author author = true
      · rw [if_pos hr] at e
        exact absurd e (by simp)
      · rw [if_neg hr] at e e'
        injection e with e
        injection e' with e'
        subst e
        subst e'
        exact List.Forall₂.nil
    | cons c2 rest =>
      intro h h' e e'
      simp only [buildHistory] at e e'
      by_cases hr : authorRetained c.author author = true
      · rw [if_pos hr] at e e'
        split at e
        · exact absurd e (by simp)
        · rename_i r hs
          split at e
          · exact absurd e (by simp)
          · rename_i tl ht
            split at e'
            · exact absurd e' (by simp)
            · rename_i r' hs'
              split at e'
              · exact absurd e' (by simp)
              · rename_i tl' ht'
                injection e with e
                injection e' with e'
                subst e
                subst e'
                exact List.Forall₂.cons (summarize_mono d dirs c r r' hs hs')
                  (ih tl tl' ht ht')
      · rw [if_neg hr] at e e'
        exact ih h h' e e'

theorem sum_map_le_of_forall₂ {α : Type} (f : α → Nat) :
    ∀ {l l' : List α}, List.Forall₂ (fun a b => f a ≤ f b) l l' →
      (l.map f).sum ≤ (l'.map f).sum := by
  intro l l' h
  induction h with
  | nil => simp
  | cons hab htail ih =>
    simp only [List.map_cons, List.sum_cons]
    exact Nat.add_le_add hab ih

theorem stats_additions_eq (l : List Commit) :
    (History.stats { commits := l }).additions = (l.map Commit.additions).sum := by
  have h := (foldl_update_spec l Stats.default).2.1
  simpa [History.stats, Stats.default] using h

theorem stats_deletions_eq (l : List Commit) :
    (History.stats { commits := l }).deletions = (l.map Commit.deletions).sum := by
  have h := (foldl_update_spec l Stats.default).2.2.1
  simpa [History.stats, Stats.default] using h

/-! Claim theorems. -/

/-- C1: when zero commits qualify the aggregate does hold commits = 0,
additions = 0, deletions = 0 and top = None, but the run does not
complete: the output stage unconditionally unwraps the absent top record
and panics, so the largest commit lines are not merely omitted. The last
conjunct evaluates the whole run on a two commit history authored by bob
with target author alice: the program fails. -/
theorem empty_result_unwrap_panics :
    (History.stats { commits := [] }).commits = 0 ∧
    (History.stats { commits := [] }).additions = 0 ∧
    (History.stats { commits := [] }).deletions = 0 ∧
    (History.stats { commits := [] }).top = none ∧
    finalOutput (History.stats { commits := [] }) = none ∧
    runModel "alice" []
      [{ author := some "bob", hash := "h1", summary := some "m1", lines := [] },
       { author := some "bob", hash := "h0", summary := some "m0", lines := [] }] =
      none := by
  decide

/-- C2: the root commit is skipped only when the author filter rejects
it. When the single commit of a one commit repository is authored by the
target, the loop still asks for the predecessor at index i plus one,
which is out of bounds, a panic: the run does not yield commits = 0.
When the author does not match, the root is indeed silently skipped. -/
theorem root_commit_author_match_panics :
    buildHistory "alice" []
      [{ author := some "alice", hash := "h0", summary := some "root", lines := [] }] =
      none ∧
    buildHistory "alice" []
      [{ author := some "bob", hash := "h0", summary := some "root", lines := [] }] =
      some [] := by
  decide

/-- C3 counterexample: the exclusion test is Rust Path::starts_with,
which matches whole path components, not a literal string prefix test.
The path docs2/x textually starts with docs, yet the code does not
exclude it: the diff line is still counted. -/
theorem literal_prefix_claim_false :
    specLiteralStartsWith "docs2/x" "docs" = true ∧
    pathStartsWith "docs2/x" "docs" = false ∧
    applyLine ["docs"] { path := some "docs2/x", origin := '+' } (Commit.new "h" "m") =
      some { hash := "h", summary := "m", additions := 1, deletions := 0 } := by
  decide

/-- C3 amended: a diff line is excluded iff the component list of some
configured directory is an initial segment of the component list of the
path, whole components only. In particular docs2/x is not excluded by
the directory docs, while docs/x is. -/
theorem exclusion_component_wise (dirs : List String) (p : String) :
    (dirs.any (fun q => pathStartsWith p q) = true ↔
      ∃ q, q ∈ dirs ∧ ∃ t, pathComponents q ++ t = pathComponents p) ∧
    pathStartsWith "docs2/x" "docs" = false ∧
    pathStartsWith "docs/x" "docs" = true := by
  refine ⟨?_, by decide, by decide⟩
  simp only [pathStartsWith]
  rw [List.any_eq_true]
  constructor
  · rintro ⟨q, hq, hpw⟩
    exact ⟨q, hq, (leadsList_iff _ _).mp hpw⟩
  · rintro ⟨q, hq, ht⟩
    exact ⟨q, hq, (leadsList_iff _ _).mpr ht⟩

/-- Witness for the amended C3 statement at a concrete path and
directory. -/
theorem exclusion_component_wise_witness :
    (["docs"].any (fun q => pathStartsWith "docs/x" q)) = true :=
  (exclusion_component_wise ["docs"] "docs/x").1.mpr
    ⟨"docs", by decide, ⟨["x"], by decide⟩⟩

/-- C4: the fold step sets top to the incoming record when top is None,
replaces it only on strictly greater size, keeps it on smaller or equal
size, and consequently the first of two equally sized records wins. -/
theorem update_largest_first_seen :
    (∀ (s : Stats) (c : Commit), s.top = none → (s.update c).top = some c) ∧
    (∀ (s : Stats) (c t : Commit), s.top = some t → t.size < c.size →
      (s.update c).top = some c) ∧
    (∀ (s : Stats) (c t : Commit), s.top = some t → c.size ≤ t.size →
      (s.update c).top = some t) ∧
    (∀ (a b : Commit), a.size = b.size →
      ((Stats.default.update a).update b).top = some a) := by
  refine ⟨?_, ?_, ?_, ?_⟩
  · intro s c h
    simp [Stats.update, h]
  · intro s c t h hlt
    simp [Stats.update, h, hlt]
  · intro s c t h hle
    simp [Stats.update, h, Nat.not_lt.mpr hle]
  · intro a b h
    have h1 : ¬ (b.size > a.size) := by omega
    simp [Stats.update, Stats.default, h1]

/-- Witness for C4 with explicit states and records, including an exact
tie of sizes five against five where the first record stays. -/
theorem update_largest_first_seen_witness :
    ((⟨0, 0, 0, none⟩ : Stats).update ⟨"a", "m1", 5, 0⟩).top = some ⟨"a", "m1", 5, 0⟩ ∧
    ((⟨1, 1, 1, some ⟨"a", "m1", 1, 0⟩⟩ : Stats).update ⟨"b", "m2", 2, 0⟩).top =
      some ⟨"b", "m2", 2, 0⟩ ∧
    ((⟨1, 1, 1, some ⟨"a", "m1", 2, 0⟩⟩ : Stats).update ⟨"b", "m2", 2, 0⟩).top =
      some ⟨"a", "m1", 2, 0⟩ ∧
    ((Stats.default.update ⟨"a", "m1", 5, 0⟩).update ⟨"b", "m2", 5, 5⟩).top =
      some ⟨"a", "m1", 5, 0⟩ :=
  ⟨update_largest_first_seen.1 _ _ rfl,
   update_largest_first_seen.2.1 _ _ _ rfl (by decide),
   update_largest_first_seen.2.2.1 _ _ _ rfl (by decide),
   update_largest_first_seen.2.2.2 _ _ (by decide)⟩

/-- C5 counterexample: there is no binary touch counter. A commit whose
diff holds exactly one binary line produces the very same record, and
hence the very same statistics, as the commit with that line removed, so
no per author statistic reflects binary touches; the record stays at
zero additions and zero deletions, so binary changes are also never
mixed into the totals. -/
theorem binary_counter_missing :
    summarize [] { author := some "alice", hash := "h", summary := some "m",
                   lines := [{ path := some "img.png", origin := 'B' }] } =
      summarize [] { author := some "alice", hash := "h", summary := some "m",
                     lines := [] } ∧
    summarize [] { author := some "alice", hash := "h", summary := some "m",
                   lines := [{ path := some "img.png", origin := 'B' }] } =
      some { hash := "h", summary := "m", additions := 0, deletions := 0 } := by
  decide

/-- C5 amended: binary line events are ignored entirely: a diff line
classified binary leaves the per commit record unchanged, whatever the
exclusion set, so binary changes are never mixed into the addition or
deletion totals and no separate counter exists. -/
theorem binary_lines_ignored (dirs : List String) (p : String) (c : Commit) :
    applyLine dirs { path := some p, origin := 'B' } c = some c := by
  have hB : applyOrigin 'B' c = c := rfl
  cases dirs with
  | nil => simp [applyLine, hB]
  | cons d ds =>
    simp only [applyLine]
    by_cases hx : (d :: ds).any (fun q => pathStartsWith p q) = true
    · simp [hx]
    · simp only [Bool.not_eq_true] at hx
      simp [hx, hB]

/-- C6: after folding any record list from the default state, commits is
the list length, additions and deletions are the sums of the per record
fields, and top is None exactly when commits is zero. -/
theorem stats_invariant (l : List Commit) :
    (History.stats { commits := l }).commits = l.length ∧
    (History.stats { commits := l }).additions = (l.map Commit.additions).sum ∧
    (History.stats { commits := l }).deletions = (l.map Commit.deletions).sum ∧
    ((History.stats { commits := l }).top = none ↔
      (History.stats { commits := l }).commits = 0) := by
  obtain ⟨h1, h2, h3, h4⟩ := foldl_update_spec l Stats.default
  have e1 : (History.stats { commits := l }).commits = l.length := by
    simpa [History.stats, Stats.default] using h1
  have e2 : (History.stats { commits := l }).additions = (l.map Commit.additions).sum := by
    simpa [History.stats, Stats.default] using h2
  have e3 : (History.stats { commits := l }).deletions = (l.map Commit.deletions).sum := by
    simpa [History.stats, Stats.default] using h3
  refine ⟨e1, e2, e3, ?_⟩
  have e4 : (History.stats { commits := l }).top = none ↔ l = [] := by
    simpa [History.stats, Stats.default] using h4
  rw [e4, e1, List.length_eq_zero]

/-- Witness for C6 at the empty record list. -/
theorem stats_invariant_witness :
    (History.stats { commits := ([] : List Commit) }).top = none :=
  (stats_invariant []).2.2.2.mpr rfl

/-- C7: when the run with exclusion set dirs completes with history h
and the run with the one further prefix d completes with history h2,
the final addition and deletion totals with d cannot exceed those
without it, and every individual record size is bounded by its
counterpart without d. -/
theorem exclusion_monotone (author d : String) (dirs : List String)
    (cs : List SourceCommit) (h h2 : List Commit)
    (hrun : buildHistory author dirs cs = some h)
    (hrun2 : buildHistory author (d :: dirs) cs = some h2) :
    (History.stats { commits := h2 }).additions ≤
      (History.stats { commits := h }).additions ∧
    (History.stats { commits := h2 }).deletions ≤
      (History.stats { commits := h }).deletions ∧
    List.Forall₂ (fun c2 c => c2.size ≤ c.size) h2 h := by
  have hrel := buildHistory_rel author d dirs cs h h2 hrun hrun2
  refine ⟨?_, ?_, ?_⟩
  · rw [stats_additions_eq, stats_additions_eq]
    exact sum_map_le_of_forall₂ Commit.additions (hrel.imp (fun a b hab => hab.1))
  · rw [stats_deletions_eq, stats_deletions_eq]
    exact sum_map_le_of_forall₂ Commit.deletions (hrel.imp (fun a b hab => hab.2.1))
  · exact hrel.imp (fun a b hab => hab.2.2)

/-- Witness for C7: author alice changed docs/a and src/a in one commit
over a two commit history; excluding docs drops the totals from two
additions to one and the record size from two to one. -/
theorem exclusion_monotone_witness :
    (History.stats { commits := [⟨"h1", "m", 1, 0⟩] }).additions ≤
      (History.stats { commits := [⟨"h1", "m", 2, 0⟩] }).additions ∧
    (History.stats { commits := [⟨"h1", "m", 1, 0⟩] }).deletions ≤
      (History.stats { commits := [⟨"h1", "m", 2, 0⟩] }).deletions ∧
    List.Forall₂ (fun c2 c => Commit.size c2 ≤ Commit.size c)
      [⟨"h1", "m", 1, 0⟩] [⟨"h1", "m", 2, 0⟩] :=
  exclusion_monotone "alice" "docs" []
    [{ author := some "alice", hash := "h1", summary := some "m",
       lines := [{ path := some "docs/a", origin := '+' },
                 { path := some "src/a", origin := '+' }] },
     { author := some "bob", hash := "h0", summary := some "r", lines := [] }]
    [⟨"h1", "m", 2, 0⟩] [⟨"h1", "m", 1, 0⟩] (by decide) (by decide)

/-- C8: a commit is retained exactly when its recorded author name is
Some of the target string, an exact case sensitive comparison, and a
commit without an author name never matches a nonempty target. -/
theorem author_filter_exact (name : Option String) (target : String) :
    (authorRetained name target = true ↔ name = some target) ∧
    (target ≠ "" → authorRetained none target = false) := by
  constructor
  · cases name <;> simp [authorRetained]
  · intro h
    rfl

/-- Witness for C8: alice matches herself, the comparison is case
sensitive, and a missing name does not match the nonempty target Bob. -/
theorem author_filter_exact_witness :
    authorRetained (some "alice") "alice" = true ∧
    authorRetained (some "Alice") "alice" = false ∧
    ("Bob" : String) ≠ "" ∧ authorRetained none "Bob" = false :=
  ⟨(author_filter_exact (some "alice") "alice").1.mpr rfl,
   by decide,
   by decide,
   (author_filter_exact none "Bob").2 (by decide)⟩

/-- C9: with a nonempty exclusion set the line callback unwraps the
delta new file path before anything else, so a diff line whose delta
carries no new file path makes the whole run panic. -/
theorem missing_path_panics (dirs : List String) (l : DiffLine) (c : Commit)
    (hne : dirs ≠ []) (hp : l.path = none) : applyLine dirs l c = none := by
  cases dirs with
  | nil => exact absurd rfl hne
  | cons d ds => simp [applyLine, hp]

/-- Witness for C9 at a concrete excluded directory and pathless line. -/
theorem missing_path_panics_witness :
    applyLine ["docs"] { path := none, origin := '+' } (Commit.new "h" "m") = none :=
  missing_path_panics ["docs"] { path := none, origin := '+' } (Commit.new "h" "m")
    (by decide) rfl

/-- C10: a commit whose author name is absent is dropped for every
target string, the empty target included, because None never equals
Some of the target. -/
theorem absent_author_never_matches (target : String) :
    authorRetained none target = false ∧ authorRetained none "" = false :=
  ⟨rfl, rfl⟩

end Gitgat
